import Mathlib

/-!
Shallow embedding of the zexson_toolkit obfuscation library
(`src/crypt.ts`, `src/generator.ts`).

JavaScript strings are modelled as lists of UTF-16 code units
(`List Nat`).  `String.fromCharCode` reduces its argument modulo 2^16
(`u16`, `jsSub`).  Functions that can throw are modelled with `Option`
(`none` = the call throws).  `Buffer.from(s).toString('base64')` is the
composition of WHATWG UTF-8 encoding of the code-unit sequence (lone
surrogates become U+FFFD) with RFC 4648 base64; `Buffer.from(s,'base64')
.toString()` is the converse.  The base64 and UTF-8 decoders are exercised
by the theorems only on valid encoder output (plus the replacement-character
path), where Node's lenient behaviour agrees with the strict one modelled
here.
-/

/-- A JavaScript string: a list of UTF-16 code units. -/
abbrev JStr := List Nat

/-- `String.fromCharCode(n)` keeps `n` modulo 2^16 (ToUint16). -/
def u16 (n : Nat) : Nat := n % 65536

/-- `String.fromCharCode(a - b)` where the JavaScript subtraction may be
negative; the result is reduced modulo 2^16.  Only used with `b ≤ 65536`. -/
def jsSub (a b : Nat) : Nat := (a + 65536 - b) % 65536

/-- Sum of the character codes of a string, as computed by
`key.split('').reduce((acc, char) => acc + char.charCodeAt(0), 0)`. -/
def keySum (k : JStr) : Nat := k.foldl (· + ·) 0

/-- The code units removed by `String.prototype.trim` (ECMAScript
WhiteSpace and LineTerminator). -/
def jsWhitespace (c : Nat) : Bool :=
  [9, 10, 11, 12, 13, 32, 160, 5760, 8232, 8233, 8239, 8287, 12288, 65279].contains c
    || (8192 ≤ c && c ≤ 8202)

/-- `String.prototype.trim`: strip leading and trailing whitespace. -/
def jsTrim (s : JStr) : JStr :=
  ((s.dropWhile jsWhitespace).reverse.dropWhile jsWhitespace).reverse

/-- `Array.prototype.map` when the callback uses the element index
(`(char, index) => ...`), starting at index `i`. -/
def mapIdx (f : Nat → Nat → Nat) : Nat → JStr → JStr
  | _, [] => []
  | i, c :: rest => f i c :: mapIdx f (i + 1) rest

/-- The standard base64 alphabet: the character code of digit `m` (< 64). -/
def charOf (m : Nat) : Nat :=
  if m < 26 then 65 + m
  else if m < 52 then 97 + (m - 26)
  else if m < 62 then 48 + (m - 52)
  else if m = 62 then 43
  else 47

/-- Inverse lookup in the base64 alphabet. -/
def invOf (c : Nat) : Nat :=
  if 65 ≤ c ∧ c ≤ 90 then c - 65
  else if 97 ≤ c ∧ c ≤ 122 then 26 + (c - 97)
  else if 48 ≤ c ∧ c ≤ 57 then 52 + (c - 48)
  else if c = 43 then 62
  else 63

/-- RFC 4648 base64 encoding of a byte sequence (with `=` padding),
as produced by `Buffer.prototype.toString('base64')`. -/
def b64encode : List Nat → List Nat
  | [] => []
  | [a] => [charOf (a / 4), charOf (a % 4 * 16), 61, 61]
  | [a, b] => [charOf (a / 4), charOf (a % 4 * 16 + b / 16), charOf (b % 16 * 4), 61]
  | a :: b :: c :: rest =>
      charOf (a / 4) :: charOf (a % 4 * 16 + b / 16) ::
      charOf (b % 16 * 4 + c / 64) :: charOf (c % 64) :: b64encode rest

/-- Base64 decoding of a character-code sequence back to bytes, as
performed by `Buffer.from(s, 'base64')` on well-formed input. -/
def b64decode : List Nat → List Nat
  | c1 :: c2 :: c3 :: c4 :: rest =>
      if c3 = 61 then [invOf c1 * 4 + invOf c2 / 16]
      else if c4 = 61 then
        [invOf c1 * 4 + invOf c2 / 16, invOf c2 % 16 * 16 + invOf c3 / 4]
      else
        (invOf c1 * 4 + invOf c2 / 16) :: (invOf c2 % 16 * 16 + invOf c3 / 4) ::
        (invOf c3 % 4 * 64 + invOf c4) :: b64decode rest
  | _ => []

/-- UTF-8 encoding of one Unicode scalar value (1 to 4 bytes). -/
def utf8EncodeChar (c : Nat) : List Nat :=
  if c < 128 then [c]
  else if c < 2048 then [192 + c / 64, 128 + c % 64]
  else if c < 65536 then [224 + c / 4096, 128 + c / 64 % 64, 128 + c % 64]
  else [240 + c / 262144, 128 + c / 4096 % 64, 128 + c / 64 % 64, 128 + c % 64]

/-- WHATWG UTF-8 encoding of a UTF-16 code-unit sequence, as performed by
`Buffer.from(s)`: well-formed surrogate pairs encode the combined scalar,
lone surrogates encode as U+FFFD (`EF BF BD`). -/
def utf8Encode : List Nat → List Nat
  | [] => []
  | [c] =>
    if 55296 ≤ c ∧ c < 57344 then [239, 191, 189] else utf8EncodeChar c
  | c :: c2 :: rest =>
    if 55296 ≤ c ∧ c < 56320 then
      if 56320 ≤ c2 ∧ c2 < 57344 then
        utf8EncodeChar (65536 + (c - 55296) * 1024 + (c2 - 56320)) ++ utf8Encode rest
      else 239 :: 191 :: 189 :: utf8Encode (c2 :: rest)
    else if 56320 ≤ c ∧ c < 57344 then 239 :: 191 :: 189 :: utf8Encode (c2 :: rest)
    else utf8EncodeChar c ++ utf8Encode (c2 :: rest)

/-- The scalar value described by a 3-byte UTF-8 sequence. -/
def dec3 (b b2 b3 : Nat) : Nat := (b - 224) * 4096 + (b2 - 128) * 64 + (b3 - 128)

/-- The scalar value described by a 4-byte UTF-8 sequence. -/
def dec4 (b b2 b3 b4 : Nat) : Nat :=
  (b - 240) * 262144 + (b2 - 128) * 4096 + (b3 - 128) * 64 + (b4 - 128)

/-- UTF-8 decoding of a byte sequence to UTF-16 code units, as performed
by `Buffer.prototype.toString()`: astral scalars become surrogate pairs,
malformed sequences become U+FFFD.  The theorems below only apply it to
well-formed encoder output, where it agrees with Node. -/
def utf8Decode : List Nat → List Nat
  | [] => []
  | [b] => if b < 128 then [b] else [65533]
  | [b, b2] =>
    if b < 128 then b :: utf8Decode [b2]
    else if b < 194 then 65533 :: utf8Decode [b2]
    else if b < 224 then
      if 128 ≤ b2 ∧ b2 < 192 then [(b - 192) * 64 + (b2 - 128)]
      else 65533 :: utf8Decode [b2]
    else 65533 :: utf8Decode [b2]
  | [b, b2, b3] =>
    if b < 128 then b :: utf8Decode [b2, b3]
    else if b < 194 then 65533 :: utf8Decode [b2, b3]
    else if b < 224 then
      if 128 ≤ b2 ∧ b2 < 192 then ((b - 192) * 64 + (b2 - 128)) :: utf8Decode [b3]
      else 65533 :: utf8Decode [b2, b3]
    else if b < 240 then
      if 128 ≤ b2 ∧ b2 < 192 ∧ 128 ≤ b3 ∧ b3 < 192 then
        if dec3 b b2 b3 < 2048 ∨ (55296 ≤ dec3 b b2 b3 ∧ dec3 b b2 b3 < 57344) then [65533]
        else [dec3 b b2 b3]
      else 65533 :: utf8Decode [b2, b3]
    else 65533 :: utf8Decode [b2, b3]
  | b :: b2 :: b3 :: b4 :: rest =>
    if b < 128 then b :: utf8Decode (b2 :: b3 :: b4 :: rest)
    else if b < 194 then 65533 :: utf8Decode (b2 :: b3 :: b4 :: rest)
    else if b < 224 then
      if 128 ≤ b2 ∧ b2 < 192 then
        ((b - 192) * 64 + (b2 - 128)) :: utf8Decode (b3 :: b4 :: rest)
      else 65533 :: utf8Decode (b2 :: b3 :: b4 :: rest)
    else if b < 240 then
      if 128 ≤ b2 ∧ b2 < 192 ∧ 128 ≤ b3 ∧ b3 < 192 then
        if dec3 b b2 b3 < 2048 ∨ (55296 ≤ dec3 b b2 b3 ∧ dec3 b b2 b3 < 57344) then
          65533 :: utf8Decode (b4 :: rest)
        else dec3 b b2 b3 :: utf8Decode (b4 :: rest)
      else 65533 :: utf8Decode (b2 :: b3 :: b4 :: rest)
    else if b < 245 then
      if 128 ≤ b2 ∧ b2 < 192 ∧ 128 ≤ b3 ∧ b3 < 192 ∧ 128 ≤ b4 ∧ b4 < 192 then
        if dec4 b b2 b3 b4 < 65536 ∨ 1114111 < dec4 b b2 b3 b4 then 65533 :: utf8Decode rest
        else (55296 + (dec4 b b2 b3 b4 - 65536) / 1024) ::
             (56320 + (dec4 b b2 b3 b4 - 65536) % 1024) :: utf8Decode rest
      else 65533 :: utf8Decode (b2 :: b3 :: b4 :: rest)
    else 65533 :: utf8Decode (b2 :: b3 :: b4 :: rest)

/-- `base64Encode` of `src/crypt.ts`: key-sum character shifting, two
base64 passes, then a position-dependent mix shift. -/
def base64Encode (data : JStr) (key : JStr) : JStr :=
  let ks := keySum key
  let shifted := mapIdx (fun i c => u16 (c + (ks + i) % 20)) 0 data
  let step1 := b64encode (utf8Encode shifted)
  let step2 := b64encode (utf8Encode step1)
  mapIdx (fun i c => u16 (c + i % 5)) 0 step2

/-- `base64Decode` of `src/crypt.ts`: unmix, two base64 decodes, then
undo the key-sum shift. -/
def base64Decode (data : JStr) (key : JStr) : JStr :=
  let ks := keySum key
  let unmixed := mapIdx (fun i c => jsSub c (i % 5)) 0 data
  let step1 := utf8Decode (b64decode unmixed)
  let step2 := utf8Decode (b64decode step1)
  mapIdx (fun i c => jsSub c ((ks + i) % 20)) 0 step2

/-- The fixed default key `'qwertyuioplkjhgfdsazxcvbnm'` used by
`encrypt`, `decrypt`, `base64Encode` and `base64Decode`. -/
def defaultKey : JStr :=
  [113, 119, 101, 114, 116, 121, 117, 105, 111, 112, 108, 107, 106, 104,
   103, 102, 100, 115, 97, 122, 120, 99, 118, 98, 110, 109]

/-- The fallback key string `'secretKey'` that `decrypt` passes to
`base64Decode` when the options object is present but has no `key`
property. -/
def secretKeyStr : JStr := [115, 101, 99, 114, 101, 116, 75, 101, 121]

/-- Options object of `decrypt`.  `key = none` models an object without a
`key` property (`hasOwnProperty('key')` is false); `key = some none`
models `{key: undefined}`; `key = some (some k)` models `{key: k}`. -/
structure DecryptOptions where
  key : Option (Option JStr)
deriving DecidableEq

/-- The character-collecting loop of `decrypt`, applied to the suffix of
the decoded payload that starts right after the first padding block:
collect `fromCharCode(code - 80 + 70)` while the number of remaining
characters excluding the last (`data.slice(i, data.length - 1).length`)
differs from `secondPart`, and stop at the first position where it is
equal. -/
def scanPlain (secondPart : Int) : JStr → JStr
  | [] => []
  | c :: rest =>
      if (rest.length : Int) ≠ secondPart then jsSub c 10 :: scanPlain secondPart rest
      else []

/-- `decrypt` of `src/crypt.ts`.  `none` models a thrown error (the
`catch` block rethrows a wrapped `Error`): the inner code throws exactly
when the decoded payload is empty (`data[0].charCodeAt(0)` on
`undefined`) or when the scan would start at a negative index
(`data[i].charCodeAt(0)` with `i < 0`). -/
def decrypt (data : JStr) (opts : Option DecryptOptions) : Option JStr :=
  let o := opts.getD ⟨some (some defaultKey)⟩
  let key := match o.key with
    | none => secretKeyStr
    | some none => defaultKey
    | some (some k) => k
  match (base64Decode (jsTrim data) key).map (fun c => jsSub c 10) with
  | [] => none
  | c0 :: rest =>
      let firsPart : Int := (c0 : Int) - 85
      let secondPart : Int := ((c0 :: rest).getLastD 0 : Int) - 85
      if firsPart + 1 < 0 then none
      else some (scanPlain secondPart ((c0 :: rest).drop (firsPart + 1).toNat))

/-- Key resolution of `encrypt`: an omitted options object resolves to
the default key; an options object without a key (or with `key:
undefined`) makes `base64Encode` fall back to its own default, which is
the same string. -/
def effKey : Option (Option JStr) → JStr
  | none => defaultKey
  | some none => defaultKey
  | some (some k) => k

/-- `encrypt` of `src/crypt.ts`, for string input.  `pad0` and `pad1` are
the two random tokens produced by the `tokenGenerator` calls (the random
draws are the lengths `floor(random()*20)+1` together with the generator's
own draws), so quantifying over them covers every outcome of the internal
random padding.  `okey` is `options.key` as in `effKey`.  The final
self-verification compares `decrypt` of the candidate against the trimmed
plaintext; on mismatch the code re-enters `encrypt` but discards the
result and falls off the function, returning `undefined` — modelled as
`none`. -/
def encrypt (pad0 pad1 : JStr) (data : JStr) (okey : Option (Option JStr)) : Option JStr :=
  let key := effKey okey
  let d := jsTrim data
  let res := d.map (fun c => u16 (c + 10))
  let firsPart := u16 (pad0.length + 85)
  let secondPart := u16 (pad1.length + 85)
  let inner := firsPart :: (pad0 ++ res ++ pad1 ++ [secondPart])
  let encrypted := base64Encode (inner.map (fun c => u16 (c + 10))) key
  if decrypt encrypted (some ⟨some (some key)⟩) = some d then some encrypted else none

/-- The named character sets of `src/generator.ts`. -/
inductive CharacterSetType where
  | defaultSet
  | set1
  | set2
deriving DecidableEq

/-- The alphabet strings of `characterSets`. -/
def characterSets : CharacterSetType → JStr
  | .defaultSet =>
      (List.range 26).map (fun i => 65 + i) ++ (List.range 26).map (fun i => 97 + i) ++
      (List.range 10).map (fun i => 48 + i)
  | .set1 => (List.range 10).map (fun i => 48 + i)
  | .set2 =>
      (List.range 26).map (fun i => 65 + i) ++ (List.range 26).map (fun i => 97 + i)

/-- `characterSets[type_] || characterSets.defaultSet`: an absent /
undefined set name falls back to the default set (every named alphabet is
a non-empty string, hence truthy). -/
def resolveSet : Option CharacterSetType → JStr
  | none => characterSets .defaultSet
  | some t => characterSets t

/-- One uniform draw `characterSet.charAt(Math.floor(Math.random() *
characterSet.length))`, driven by an oracle stream `rand` of naturals:
draw number `j` picks index `rand j % cs.length`, which ranges over
exactly the valid indices. -/
def drawChar (rand : Nat → Nat) (cs : JStr) (j : Nat) : Nat :=
  cs.getD (rand j % cs.length) 0

/-- The initial `for` loop of `tokenGenerator`: `length` draws (none when
`length ≤ 0`), consuming draws `j, j+1, …`. -/
def tgInit (rand : Nat → Nat) (cs : JStr) (j : Nat) : Nat → JStr
  | 0 => []
  | n + 1 => drawChar rand cs j :: tgInit rand cs (j + 1) n

/-- The `do … while` re-validation loop of `tokenGenerator`, with
explicit fuel (`none` = the loop has not terminated within `fuel`
iterations).  Each iteration rebuilds `_token_` from `token`, redraws
`_token_[0]` if it is `'0'` (code 48), appends a fresh draw if `token` is
shorter than requested, and exits once `_token_[0] ≠ '0'` and
`token.length = length`, returning `_token_.join('')`. -/
def tgLoop (rand : Nat → Nat) (cs : JStr) (len : Int) :
    Nat → JStr → Nat → Option JStr
  | 0, _, _ => none
  | fuel + 1, token, j =>
      let fixHead := token.head? = some 48
      let t1 := if fixHead then token.tail.cons (drawChar rand cs j) else token
      let j1 := if fixHead then j + 1 else j
      let grow := (token.length : Int) < len
      let token1 := if grow then token ++ [drawChar rand cs j1] else token
      let j2 := if grow then j1 + 1 else j1
      if t1.head? = some 48 ∨ (token1.length : Int) ≠ len then
        tgLoop rand cs len fuel token1 j2
      else some t1

/-- `tokenGenerator` of `src/generator.ts`, driven by the draw oracle
`rand` and observed through `fuel` iterations of its re-validation loop:
`some t` means the call returns `t`; `none` means the loop is still
running after `fuel` iterations. -/
def tokenGenerator (rand : Nat → Nat) (fuel : Nat) (len : Int)
    (type? : Option CharacterSetType) : Option JStr :=
  let cs := resolveSet type?
  tgLoop rand cs len fuel (tgInit rand cs 0 len.toNat) len.toNat

/-- `String.prototype.toLowerCase`, modelled on the Basic Latin range
(every concrete string compared below is ASCII; the option-defaulting
facts proved about `isEqual` hold for any case-folding function). -/
def jsToLower (s : JStr) : JStr :=
  s.map (fun c => if 65 ≤ c ∧ c ≤ 90 then c + 32 else c)

/-- Options object of `isEqual`; each field may be absent. -/
structure IsEqualOptions where
  caseSensitive : Option Bool
  key : Option JStr
  log : Option Bool
deriving DecidableEq

/-- Result object of `isEqual`. -/
structure EqResult where
  isEq : Bool
  method : Option String
deriving DecidableEq

/-- `isEqual` of `src/crypt.ts`.  `options = options || {caseSensitive:
true}` replaces only an *omitted* argument; `!options.caseSensitive`
selects `"toLowerCase"` whenever the field is absent or `false`, and
`"toString"` (the identity on strings) only when it is literally `true`.
`options.key || undefined` turns an absent or empty key into `undefined`.
Decryption failures are caught and replaced by the raw string.  The
comparison cascade and its asymmetries follow the source line by line. -/
def isEqual (text text1 : JStr) (options : Option IsEqualOptions) : EqResult :=
  let o := options.getD ⟨some true, none, none⟩
  let okey : Option JStr := match o.key with
    | some k => if k = [] then none else some k
    | none => none
  let fold : JStr → JStr := if o.caseSensitive = some true then id else jsToLower
  if text = text1 ∨ fold text = text1 ∨ text = fold text1 ∨ fold text = fold text1 then
    ⟨true, some "Direct comparison"⟩
  else
    let dOpts : Option DecryptOptions := some ⟨some okey⟩
    let decryptedText := (decrypt text dOpts).getD text
    let decryptedText1 := (decrypt text1 dOpts).getD text1
    if decryptedText1 = text ∨ fold decryptedText1 = text ∨
       decryptedText1 = fold text ∨ fold decryptedText1 = fold text then
      ⟨true, some "Decrypted Text1 matched Text"⟩
    else if decryptedText = text1 ∨ fold decryptedText = text1 then
      ⟨true, some "Decrypted Text matches Text1"⟩
    else if decryptedText1 = decryptedText ∨ fold decryptedText1 = decryptedText ∨
            decryptedText1 = fold decryptedText then
      ⟨true, some "Both decrypted values match"⟩
    else ⟨false, none⟩

/-- A JavaScript value as walked by `encryptObject` / `decryptObject`:
scalars, `null` (for which `typeof` is `'object'`), arrays, plain objects
(association lists preserving insertion order), and any other leaf
(`undefined`, functions, …) whose `typeof` is neither a scalar type nor
`'object'`. -/
inductive JSValue where
  | str (s : JStr)
  | num (n : Int)
  | bool (b : Bool)
  | null
  | arr (xs : List JSValue)
  | obj (fields : List (JStr × JSValue))
  | other

/-- `String(n)` for an (integral) JavaScript number. -/
def numToStr (n : Int) : JStr := (toString n).data.map Char.toNat

/-- `String(b)` for a boolean. -/
def boolToStr (b : Bool) : JStr :=
  if b then [116, 114, 117, 101] else [102, 97, 108, 115, 101]

/-- The value stored after `encrypt(...) as string`: the ciphertext, or
the `undefined` produced when `encrypt` falls through its verification
branch. -/
def liftEnc (r : Option JStr) : JSValue :=
  match r with
  | some s => .str s
  | none => .other

mutual
/-- Value dispatch of the `encryptObject` loop body for a mapping value
`v` (the right-hand side of one `Object.entries` pair).  `enc s` is
`encrypt(s, { key })` with its fresh internal randomness; `none` models a
thrown error (`Object.entries(null)`). -/
def encTopVal (enc : JStr → Option JStr) : JSValue → Option JSValue
  | .str s => some (liftEnc (enc (jsTrim s)))
  | .num n => some (liftEnc (enc (jsTrim (numToStr n))))
  | .bool b => some (liftEnc (enc (jsTrim (boolToStr b))))
  | .arr xs => (encItems enc xs).map .arr
  | .obj fs => (encFields enc fs).map .obj
  | .null => none
  | .other => some .other

/-- The whole `encryptObject` entry loop over an object's fields. -/
def encFields (enc : JStr → Option JStr) :
    List (JStr × JSValue) → Option (List (JStr × JSValue))
  | [] => some []
  | (k, v) :: rest =>
      match encTopVal enc v, encFields enc rest with
      | some v', some rest' => some ((k, v') :: rest')
      | _, _ => none

/-- The array branch of `encryptObject`: `v.map(item => …)`. -/
def encItems (enc : JStr → Option JStr) : List JSValue → Option (List JSValue)
  | [] => some []
  | x :: xs =>
      match encItem enc x, encItems enc xs with
      | some x', some xs' => some (x' :: xs')
      | _, _ => none

/-- The per-item callback of the array branch: strings and numbers are
encrypted, nested arrays map their elements through the sub-item
callback, objects recurse, and everything else — booleans included — is
returned unchanged. -/
def encItem (enc : JStr → Option JStr) : JSValue → Option JSValue
  | .str s => some (liftEnc (enc s))
  | .num n => some (liftEnc (enc (numToStr n)))
  | .arr ys => (encSubItems enc ys).map .arr
  | .obj fs => (encFields enc fs).map .obj
  | .null => none
  | .bool b => some (.bool b)
  | .other => some .other

/-- `item.map(subItem => …)` for an array nested inside an array. -/
def encSubItems (enc : JStr → Option JStr) : List JSValue → Option (List JSValue)
  | [] => some []
  | x :: xs =>
      match encSubItem enc x, encSubItems enc xs with
      | some x', some xs' => some (x' :: xs')
      | _, _ => none

/-- The sub-item callback: strings and numbers are encrypted; a doubly
nested array is wrapped as `encryptObject({arr: subItem}, key).arr`,
which routes it through the array branch again (`encItems`); objects
recurse; anything else is unchanged. -/
def encSubItem (enc : JStr → Option JStr) : JSValue → Option JSValue
  | .str s => some (liftEnc (enc s))
  | .num n => some (liftEnc (enc (numToStr n)))
  | .arr zs => (encItems enc zs).map .arr
  | .obj fs => (encFields enc fs).map .obj
  | .null => none
  | .bool b => some (.bool b)
  | .other => some .other
end

mutual
/-- Value dispatch of the `decryptObject` loop body: only string values
are decrypted (`decrypt` may throw, which propagates — there is no catch
in the walker); arrays and objects recurse; every other scalar passes
through unchanged; `null` reaches `Object.entries(null)` and throws. -/
def decTopVal (key : JStr) : JSValue → Option JSValue
  | .str s => (decrypt (jsTrim s) (some ⟨some (some key)⟩)).map .str
  | .arr xs => (decItems key xs).map .arr
  | .obj fs => (decFields key fs).map .obj
  | .null => none
  | .num n => some (.num n)
  | .bool b => some (.bool b)
  | .other => some .other

/-- The `decryptObject` entry loop over an object's fields. -/
def decFields (key : JStr) :
    List (JStr × JSValue) → Option (List (JStr × JSValue))
  | [] => some []
  | (k, v) :: rest =>
      match decTopVal key v, decFields key rest with
      | some v', some rest' => some ((k, v') :: rest')
      | _, _ => none

/-- The array branch of `decryptObject`. -/
def decItems (key : JStr) : List JSValue → Option (List JSValue)
  | [] => some []
  | x :: xs =>
      match decItem key x, decItems key xs with
      | some x', some xs' => some (x' :: xs')
      | _, _ => none

/-- The per-item callback of the decrypt array branch. -/
def decItem (key : JStr) : JSValue → Option JSValue
  | .str s => (decrypt s (some ⟨some (some key)⟩)).map .str
  | .arr ys => (decSubItems key ys).map .arr
  | .obj fs => (decFields key fs).map .obj
  | .null => none
  | .num n => some (.num n)
  | .bool b => some (.bool b)
  | .other => some .other

/-- `item.map(subItem => …)` on the decrypt path. -/
def decSubItems (key : JStr) : List JSValue → Option (List JSValue)
  | [] => some []
  | x :: xs =>
      match decSubItem key x, decSubItems key xs with
      | some x', some xs' => some (x' :: xs')
      | _, _ => none

/-- The sub-item callback on the decrypt path; a doubly nested array is
`decryptObject({arr: subItem}, key).arr`, i.e. the array branch again. -/
def decSubItem (key : JStr) : JSValue → Option JSValue
  | .str s => (decrypt s (some ⟨some (some key)⟩)).map .str
  | .arr zs => (decItems key zs).map .arr
  | .obj fs => (decFields key fs).map .obj
  | .null => none
  | .num n => some (.num n)
  | .bool b => some (.bool b)
  | .other => some .other
end

/-- The container skeleton of a value: container kind, key order and
sequence length, with every leaf collapsed. -/
inductive Shape where
  | leaf
  | arr (xs : List Shape)
  | obj (fields : List (JStr × Shape))

mutual
/-- `shape` of a value. -/
def shapeV : JSValue → Shape
  | .arr xs => .arr (shapeL xs)
  | .obj fs => .obj (shapeF fs)
  | _ => .leaf

/-- `shape` of a list of values. -/
def shapeL : List JSValue → List Shape
  | [] => []
  | x :: xs => shapeV x :: shapeL xs

/-- `shape` of a field list. -/
def shapeF : List (JStr × JSValue) → List (JStr × Shape)
  | [] => []
  | (k, v) :: rest => (k, shapeV v) :: shapeF rest
end

/-! ### Arithmetic and list helpers -/

theorem u16_shift_cancel {c s : Nat} (hc : c < 65536) (hs : s ≤ 65536) :
    jsSub (u16 (c + s)) s = c := by
  unfold jsSub u16
  omega

theorem mapIdx_cancel (f g : Nat → Nat → Nat) :
    ∀ (l : JStr) (n : Nat), (∀ i x, x ∈ l → g i (f i x) = x) →
      mapIdx g n (mapIdx f n l) = l
  | [], _, _ => rfl
  | c :: rest, n, h => by
      simp only [mapIdx]
      rw [h n c (by simp),
        mapIdx_cancel f g rest (n + 1) (fun i x hx => h i x (by simp [hx]))]

theorem mapIdx_mem (P : Nat → Prop) (f : Nat → Nat → Nat) :
    ∀ (l : JStr) (n : Nat), (∀ i x, x ∈ l → P (f i x)) →
      ∀ y ∈ mapIdx f n l, P y
  | [], _, _, y, hy => by simp [mapIdx] at hy
  | c :: rest, n, h, y, hy => by
      simp only [mapIdx, List.mem_cons] at hy
      rcases hy with rfl | hy
      · exact h n c (by simp)
      · exact mapIdx_mem P f rest (n + 1) (fun i x hx => h i x (by simp [hx])) y hy

/-! ### Base64 lemmas -/

theorem invOf_charOf : ∀ m < 64, invOf (charOf m) = m := by decide

theorem charOf_ne_61 : ∀ m < 64, charOf m ≠ 61 := by decide

theorem charOf_bounds (m : Nat) : 43 ≤ charOf m ∧ charOf m ≤ 122 := by
  unfold charOf
  split_ifs <;> omega

theorem b64encode_mem : ∀ (l : List Nat) (x : Nat), x ∈ b64encode l → 43 ≤ x ∧ x ≤ 122
  | [], x, hx => by simp [b64encode] at hx
  | [a], x, hx => by
      simp only [b64encode, List.mem_cons, List.not_mem_nil, or_false] at hx
      rcases hx with rfl | rfl | rfl | rfl
      · exact charOf_bounds _
      · exact charOf_bounds _
      · omega
      · omega
  | [a, b], x, hx => by
      simp only [b64encode, List.mem_cons, List.not_mem_nil, or_false] at hx
      rcases hx with rfl | rfl | rfl | rfl
      · exact charOf_bounds _
      · exact charOf_bounds _
      · exact charOf_bounds _
      · omega
  | a :: b :: c :: rest, x, hx => by
      simp only [b64encode, List.mem_cons] at hx
      rcases hx with rfl | rfl | rfl | rfl | hx
      · exact charOf_bounds _
      · exact charOf_bounds _
      · exact charOf_bounds _
      · exact charOf_bounds _
      · exact b64encode_mem rest x hx

theorem b64_roundtrip : ∀ (l : List Nat), (∀ x ∈ l, x < 256) →
    b64decode (b64encode l) = l
  | [], _ => rfl
  | [a], h => by
      have ha : a < 256 := h a (by simp)
      simp only [b64encode, b64decode, if_pos]
      rw [invOf_charOf _ (by omega), invOf_charOf _ (by omega)]
      congr 1
      omega
  | [a, b], h => by
      have ha : a < 256 := h a (by simp)
      have hb : b < 256 := h b (by simp)
      simp only [b64encode, b64decode]
      rw [if_neg (charOf_ne_61 _ (by omega))]
      simp only [if_true]
      rw [invOf_charOf _ (by omega), invOf_charOf _ (by omega), invOf_charOf _ (by omega)]
      congr 1
      · omega
      · congr 1
        omega
  | a :: b :: c :: rest, h => by
      have ha : a < 256 := h a (by simp)
      have hb : b < 256 := h b (by simp)
      have hc : c < 256 := h c (by simp)
      simp only [b64encode, b64decode]
      rw [if_neg (charOf_ne_61 _ (by omega)), if_neg (charOf_ne_61 _ (by omega)),
        invOf_charOf _ (by omega), invOf_charOf _ (by omega), invOf_charOf _ (by omega),
        invOf_charOf _ (by omega),
        b64_roundtrip rest (fun x hx => h x (by simp [hx]))]
      congr 1
      · omega
      · congr 1
        · omega
        · congr 1
          omega

/-! ### UTF-8 lemmas -/

theorem utf8Decode_cons_ascii {b : Nat} (hb : b < 128) :
    ∀ (bs : List Nat), utf8Decode (b :: bs) = b :: utf8Decode bs
  | [] => by simp [utf8Decode, hb]
  | [x] => by simp only [utf8Decode]; rw [if_pos hb]
  | [x, y] => by simp only [utf8Decode]; rw [if_pos hb]
  | x :: y :: z :: rest => by simp only [utf8Decode]; rw [if_pos hb]

theorem utf8Decode_cons2 {b b2 : Nat} (h1 : 194 ≤ b) (h2 : b < 224)
    (h3 : 128 ≤ b2) (h4 : b2 < 192) :
    ∀ (bs : List Nat),
      utf8Decode (b :: b2 :: bs) = ((b - 192) * 64 + (b2 - 128)) :: utf8Decode bs
  | [] => by
      simp only [utf8Decode]
      rw [if_neg (by omega), if_neg (by omega), if_pos (by omega), if_pos ⟨h3, h4⟩]
  | [x] => by
      simp only [utf8Decode]
      rw [if_neg (by omega), if_neg (by omega), if_pos (by omega), if_pos ⟨h3, h4⟩]
  | x :: y :: rest => by
      simp only [utf8Decode]
      rw [if_neg (by omega), if_neg (by omega), if_pos (by omega), if_pos ⟨h3, h4⟩]

theorem utf8Decode_cons3 {b b2 b3 : Nat} (h1 : 224 ≤ b) (h2 : b < 240)
    (h3 : 128 ≤ b2) (h4 : b2 < 192) (h5 : 128 ≤ b3) (h6 : b3 < 192)
    (h7 : ¬(dec3 b b2 b3 < 2048 ∨ (55296 ≤ dec3 b b2 b3 ∧ dec3 b b2 b3 < 57344))) :
    ∀ (bs : List Nat),
      utf8Decode (b :: b2 :: b3 :: bs) = dec3 b b2 b3 :: utf8Decode bs
  | [] => by
      simp only [utf8Decode]
      rw [if_neg (by omega), if_neg (by omega), if_neg (by omega), if_pos (by omega),
        if_pos ⟨h3, h4, h5, h6⟩, if_neg h7]
  | x :: rest => by
      simp only [utf8Decode]
      rw [if_neg (by omega), if_neg (by omega), if_neg (by omega), if_pos (by omega),
        if_pos ⟨h3, h4, h5, h6⟩, if_neg h7]

theorem utf8Decode_encodeChar {c : Nat}
    (hc : c < 55296 ∨ (57344 ≤ c ∧ c < 65536)) (bs : List Nat) :
    utf8Decode (utf8EncodeChar c ++ bs) = c :: utf8Decode bs := by
  unfold utf8EncodeChar
  by_cases h1 : c < 128
  · rw [if_pos h1]
    simpa using utf8Decode_cons_ascii h1 bs
  · rw [if_neg h1]
    by_cases h2 : c < 2048
    · rw [if_pos h2]
      simp only [List.cons_append, List.nil_append]
      rw [utf8Decode_cons2 (by omega) (by omega) (by omega) (by omega) bs,
        show (192 + c / 64 - 192) * 64 + (128 + c % 64 - 128) = c from by omega]
    · rw [if_neg h2, if_pos (by omega)]
      simp only [List.cons_append, List.nil_append]
      rw [utf8Decode_cons3 (by omega) (by omega) (by omega) (by omega) (by omega) (by omega)
        (by unfold dec3; omega) bs,
        show dec3 (224 + c / 4096) (128 + c / 64 % 64) (128 + c % 64) = c from by
          unfold dec3; omega]

theorem utf8_roundtrip : ∀ (l : List Nat),
    (∀ c ∈ l, c < 55296 ∨ (57344 ≤ c ∧ c < 65536)) →
    utf8Decode (utf8Encode l) = l
  | [], _ => rfl
  | [c], h => by
      have hc := h c (by simp)
      simp only [utf8Encode]
      rw [if_neg (by omega)]
      have hd := utf8Decode_encodeChar hc []
      rw [List.append_nil] at hd
      rw [hd]
      rfl
  | c :: c2 :: rest, h => by
      have hc := h c (by simp)
      simp only [utf8Encode]
      rw [if_neg (by omega), if_neg (by omega),
        utf8Decode_encodeChar hc (utf8Encode (c2 :: rest)),
        utf8_roundtrip (c2 :: rest) (fun x hx => h x (by simp [hx]))]

theorem utf8EncodeChar_mem {c : Nat} (hc : c < 1114112) :
    ∀ b ∈ utf8EncodeChar c, b < 256 := by
  intro b hb
  unfold utf8EncodeChar at hb
  split_ifs at hb with h1 h2 h3
  · simp only [List.mem_singleton] at hb
    omega
  · simp only [List.mem_cons, List.not_mem_nil, or_false] at hb
    rcases hb with rfl | rfl <;> omega
  · simp only [List.mem_cons, List.not_mem_nil, or_false] at hb
    rcases hb with rfl | rfl | rfl <;> omega
  · simp only [List.mem_cons, List.not_mem_nil, or_false] at hb
    rcases hb with rfl | rfl | rfl | rfl <;> omega

theorem utf8Encode_mem : ∀ (l : List Nat), (∀ c ∈ l, c < 65536) →
    ∀ b ∈ utf8Encode l, b < 256
  | [], _, b, hb => by simp [utf8Encode] at hb
  | [c], h, b, hb => by
      simp only [utf8Encode] at hb
      split_ifs at hb with h1
      · simp only [List.mem_cons, List.not_mem_nil, or_false] at hb
        rcases hb with rfl | rfl | rfl <;> omega
      · exact utf8EncodeChar_mem (by have := h c (by simp); omega) b hb
  | c :: c2 :: rest, h, b, hb => by
      have hc := h c (by simp)
      have hc2 := h c2 (by simp)
      simp only [utf8Encode] at hb
      split_ifs at hb with h1 h2 h3
      · rcases List.mem_append.1 hb with hb | hb
        · exact utf8EncodeChar_mem (by omega) b hb
        · exact utf8Encode_mem rest (fun x hx => h x (by simp [hx])) b hb
      · simp only [List.mem_cons] at hb
        rcases hb with rfl | rfl | rfl | hb
        · omega
        · omega
        · omega
        · exact utf8Encode_mem (c2 :: rest) (fun x hx => h x (by simp [hx])) b hb
      · simp only [List.mem_cons] at hb
        rcases hb with rfl | rfl | rfl | hb
        · omega
        · omega
        · omega
        · exact utf8Encode_mem (c2 :: rest) (fun x hx => h x (by simp [hx])) b hb
      · rcases List.mem_append.1 hb with hb | hb
        · exact utf8EncodeChar_mem (by omega) b hb
        · exact utf8Encode_mem (c2 :: rest) (fun x hx => h x (by simp [hx])) b hb

/-! ### Codec round trip -/

theorem codec_roundtrip (x k : JStr) (hx : ∀ c ∈ x, c < 65536)
    (hsh : ∀ y ∈ mapIdx (fun i c => u16 (c + (keySum k + i) % 20)) 0 x,
      y < 55296 ∨ (57344 ≤ y ∧ y < 65536)) :
    base64Decode (base64Encode x k) k = x := by
  set S := mapIdx (fun i c => u16 (c + (keySum k + i) % 20)) 0 x with hS
  have hS16 : ∀ c ∈ S, c < 65536 :=
    mapIdx_mem _ _ x 0 (fun i c _ => by unfold u16; omega)
  have h1 : ∀ c ∈ b64encode (utf8Encode S), c < 65536 := fun c hc => by
    have := b64encode_mem _ c hc; omega
  have hns1 : ∀ c ∈ b64encode (utf8Encode S), c < 55296 ∨ (57344 ≤ c ∧ c < 65536) :=
    fun c hc => by have := b64encode_mem _ c hc; omega
  have hT : ∀ c ∈ b64encode (utf8Encode (b64encode (utf8Encode S))), c < 65536 :=
    fun c hc => by have := b64encode_mem _ c hc; omega
  have key : base64Decode (base64Encode x k) k
      = mapIdx (fun i c => jsSub c ((keySum k + i) % 20)) 0
          (utf8Decode (b64decode (utf8Decode (b64decode
            (mapIdx (fun i c => jsSub c (i % 5)) 0
              (mapIdx (fun i c => u16 (c + i % 5)) 0
                (b64encode (utf8Encode (b64encode (utf8Encode S)))))))))) := rfl
  rw [key,
    mapIdx_cancel (fun i c => u16 (c + i % 5)) (fun i c => jsSub c (i % 5)) _ 0
      (fun i c hc => u16_shift_cancel (hT c hc) (by omega)),
    b64_roundtrip _ (utf8Encode_mem _ h1),
    utf8_roundtrip _ hns1,
    b64_roundtrip _ (utf8Encode_mem _ hS16),
    utf8_roundtrip _ hsh,
    mapIdx_cancel (fun i c => u16 (c + (keySum k + i) % 20))
      (fun i c => jsSub c ((keySum k + i) % 20)) x 0
      (fun i c hc => u16_shift_cancel (hx c hc) (by omega))]

/-! ### Trim lemmas -/

theorem dropWhile_eq_self_of (p : Nat → Bool) (l : JStr)
    (h : ∀ c ∈ l, p c = false) : l.dropWhile p = l := by
  cases l with
  | nil => rfl
  | cons a t =>
      rw [List.dropWhile_cons, h a (by simp)]
      simp

theorem jsTrim_eq_self (l : JStr) (h : ∀ c ∈ l, jsWhitespace c = false) :
    jsTrim l = l := by
  unfold jsTrim
  rw [dropWhile_eq_self_of _ _ h,
    dropWhile_eq_self_of _ _ (fun c hc => h c (List.mem_reverse.1 hc)),
    List.reverse_reverse]

theorem mem_jsTrim {x : Nat} {l : JStr} (hx : x ∈ jsTrim l) : x ∈ l := by
  unfold jsTrim at hx
  rw [List.mem_reverse] at hx
  have h2 := (List.dropWhile_sublist _).mem hx
  rw [List.mem_reverse] at h2
  exact (List.dropWhile_sublist _).mem h2

theorem jsWhitespace_eq_false {c : Nat} (h1 : 33 ≤ c) (h2 : c ≤ 126) :
    jsWhitespace c = false := by
  unfold jsWhitespace
  simp only [List.contains_cons, List.contains_nil, Bool.or_eq_false_iff,
    Bool.and_eq_false_iff, beq_eq_false_iff_ne, ne_eq, decide_eq_false_iff_not,
    not_le, and_true]
  omega

/-! ### Decrypt / encrypt round trip -/

theorem scanPlain_spec : ∀ (mid pad1 : JStr) (m1 : Nat),
    scanPlain (pad1.length : Int) (mid ++ (pad1 ++ [m1])) = mid.map (fun c => jsSub c 10)
  | [], pad1, m1 => by
      cases pad1 with
      | nil => simp [scanPlain]
      | cons q qs =>
          simp only [List.nil_append, List.cons_append, scanPlain]
          rw [if_neg (by simp)]
          simp
  | c :: mid', pad1, m1 => by
      simp only [List.cons_append, scanPlain, List.append_eq]
      rw [if_pos (by simp [List.length_append]; omega), scanPlain_spec mid' pad1 m1]
      simp

theorem decrypt_eval (data key : JStr) (c0 : Nat) (rest : JStr)
    (hd : (base64Decode (jsTrim data) key).map (fun c => jsSub c 10) = c0 :: rest) :
    decrypt data (some ⟨some (some key)⟩)
      = if ((c0 : Int) - 85) + 1 < 0 then none
        else some (scanPlain (((c0 :: rest).getLastD 0 : Int) - 85)
          ((c0 :: rest).drop ((c0 : Int) - 85 + 1).toNat)) := by
  simp only [decrypt, Option.getD_some]
  rw [hd]

theorem map_unshift_shift : ∀ (l : JStr), (∀ c ∈ l, c < 65536) →
    (l.map (fun c => u16 (c + 10))).map (fun c => jsSub c 10) = l
  | [], _ => rfl
  | c :: rest, h => by
      simp only [List.map_cons]
      rw [u16_shift_cancel (h c (by simp)) (by omega),
        map_unshift_shift rest (fun x hx => h x (by simp [hx]))]

theorem decrypt_candidate (pad0 pad1 s key : JStr)
    (hs : ∀ c ∈ s, 32 ≤ c ∧ c ≤ 126)
    (hp0u : pad0.length ≤ 20) (hp0 : ∀ c ∈ pad0, 48 ≤ c ∧ c ≤ 122)
    (hp1u : pad1.length ≤ 20) (hp1 : ∀ c ∈ pad1, 48 ≤ c ∧ c ≤ 122) :
    decrypt
      (base64Encode
        ((u16 (pad0.length + 85) ::
          (pad0 ++ (jsTrim s).map (fun c => u16 (c + 10)) ++ pad1 ++ [u16 (pad1.length + 85)])).map
            (fun c => u16 (c + 10))) key)
      (some ⟨some (some key)⟩) = some (jsTrim s) := by
  have htrimmem : ∀ c ∈ jsTrim s, 32 ≤ c ∧ c ≤ 126 := fun c hc => hs c (mem_jsTrim hc)
  have hm0 : u16 (pad0.length + 85) = pad0.length + 85 := by unfold u16; omega
  have hm1 : u16 (pad1.length + 85) = pad1.length + 85 := by unfold u16; omega
  have hmidB : ∀ c ∈ (jsTrim s).map (fun c => u16 (c + 10)), 42 ≤ c ∧ c ≤ 136 := by
    intro c hc
    rcases List.mem_map.1 hc with ⟨a, ha, rfl⟩
    have := htrimmem a ha
    unfold u16
    omega
  have hinnerB : ∀ c ∈ u16 (pad0.length + 85) ::
      (pad0 ++ (jsTrim s).map (fun c => u16 (c + 10)) ++ pad1 ++ [u16 (pad1.length + 85)]),
      42 ≤ c ∧ c ≤ 136 := by
    intro c hc
    simp only [List.mem_cons, List.mem_append, List.mem_singleton, List.not_mem_nil,
      or_false] at hc
    rcases hc with rfl | (((hc | hc) | hc) | rfl)
    · rw [hm0]; omega
    · have := hp0 c hc; omega
    · exact hmidB c hc
    · have := hp1 c hc; omega
    · rw [hm1]; omega
  have houterB : ∀ c ∈ (u16 (pad0.length + 85) ::
      (pad0 ++ (jsTrim s).map (fun c => u16 (c + 10)) ++ pad1 ++ [u16 (pad1.length + 85)])).map
        (fun c => u16 (c + 10)), 52 ≤ c ∧ c ≤ 146 := by
    intro c hc
    rcases List.mem_map.1 hc with ⟨a, ha, rfl⟩
    have := hinnerB a ha
    unfold u16
    omega
  have houter16 : ∀ c ∈ (u16 (pad0.length + 85) ::
      (pad0 ++ (jsTrim s).map (fun c => u16 (c + 10)) ++ pad1 ++ [u16 (pad1.length + 85)])).map
        (fun c => u16 (c + 10)), c < 65536 := fun c hc => by have := houterB c hc; omega
  have hshifted : ∀ y ∈ mapIdx (fun i c => u16 (c + (keySum key + i) % 20)) 0
      ((u16 (pad0.length + 85) ::
        (pad0 ++ (jsTrim s).map (fun c => u16 (c + 10)) ++ pad1 ++ [u16 (pad1.length + 85)])).map
          (fun c => u16 (c + 10))),
      y < 55296 ∨ (57344 ≤ y ∧ y < 65536) := by
    refine mapIdx_mem _ _ _ 0 (fun i c hc => ?_)
    have := houterB c hc
    left
    have h20 : (keySum key + i) % 20 < 20 := Nat.mod_lt _ (by omega)
    unfold u16
    omega
  have hciphE : base64Encode
      ((u16 (pad0.length + 85) ::
        (pad0 ++ (jsTrim s).map (fun c => u16 (c + 10)) ++ pad1 ++ [u16 (pad1.length + 85)])).map
          (fun c => u16 (c + 10))) key
      = mapIdx (fun i c => u16 (c + i % 5)) 0
          (b64encode (utf8Encode (b64encode (utf8Encode
            (mapIdx (fun i c => u16 (c + (keySum key + i) % 20)) 0
              ((u16 (pad0.length + 85) ::
                (pad0 ++ (jsTrim s).map (fun c => u16 (c + 10)) ++ pad1 ++
                  [u16 (pad1.length + 85)])).map (fun c => u16 (c + 10)))))))) := by
    simp only [base64Encode]
  have hciphB : ∀ c ∈ base64Encode
      ((u16 (pad0.length + 85) ::
        (pad0 ++ (jsTrim s).map (fun c => u16 (c + 10)) ++ pad1 ++ [u16 (pad1.length + 85)])).map
          (fun c => u16 (c + 10))) key, 43 ≤ c ∧ c ≤ 126 := by
    rw [hciphE]
    refine mapIdx_mem _ _ _ 0 (fun i c hc => ?_)
    have := b64encode_mem _ c hc
    have h5 : i % 5 < 5 := Nat.mod_lt _ (by omega)
    unfold u16
    omega
  have htrimciph : jsTrim (base64Encode
      ((u16 (pad0.length + 85) ::
        (pad0 ++ (jsTrim s).map (fun c => u16 (c + 10)) ++ pad1 ++ [u16 (pad1.length + 85)])).map
          (fun c => u16 (c + 10))) key)
      = base64Encode
      ((u16 (pad0.length + 85) ::
        (pad0 ++ (jsTrim s).map (fun c => u16 (c + 10)) ++ pad1 ++ [u16 (pad1.length + 85)])).map
          (fun c => u16 (c + 10))) key := by
    refine jsTrim_eq_self _ (fun c hc => ?_)
    have := hciphB c hc
    exact jsWhitespace_eq_false (by omega) (by omega)
  have hscrut : (base64Decode (jsTrim (base64Encode
      ((u16 (pad0.length + 85) ::
        (pad0 ++ (jsTrim s).map (fun c => u16 (c + 10)) ++ pad1 ++ [u16 (pad1.length + 85)])).map
          (fun c => u16 (c + 10))) key)) key).map (fun c => jsSub c 10)
      = (pad0.length + 85) ::
        (pad0 ++ (jsTrim s).map (fun c => u16 (c + 10)) ++ pad1 ++ [pad1.length + 85]) := by
    rw [htrimciph, codec_roundtrip _ key houter16 hshifted,
      map_unshift_shift _ (fun c hc => by have := hinnerB c hc; omega), hm0, hm1]
  rw [decrypt_eval _ key _ _ hscrut, if_neg (by omega)]
  have hlast : ((pad0.length + 85) ::
      (pad0 ++ (jsTrim s).map (fun c => u16 (c + 10)) ++ pad1 ++ [pad1.length + 85])).getLastD 0
      = pad1.length + 85 := by
    rw [show (pad0.length + 85) ::
        (pad0 ++ (jsTrim s).map (fun c => u16 (c + 10)) ++ pad1 ++ [pad1.length + 85])
        = ((pad0.length + 85) :: (pad0 ++ (jsTrim s).map (fun c => u16 (c + 10)) ++ pad1)) ++
          [pad1.length + 85] from by simp]
    exact List.getLastD_concat _ _ _
  rw [hlast,
    show ((pad0.length + 85 : Nat) : Int) - 85 + 1 = ((pad0.length + 1 : Nat) : Int) from by
      push_cast; ring,
    Int.toNat_natCast, List.drop_succ_cons,
    show pad0 ++ (jsTrim s).map (fun c => u16 (c + 10)) ++ pad1 ++ [pad1.length + 85]
      = pad0 ++ ((jsTrim s).map (fun c => u16 (c + 10)) ++ (pad1 ++ [pad1.length + 85])) from by
      simp [List.append_assoc],
    List.drop_left,
    show ((pad1.length + 85 : Nat) : Int) - 85 = (pad1.length : Int) from by push_cast; ring,
    scanPlain_spec _ pad1 _,
    map_unshift_shift _ (fun c hc => by have := htrimmem c hc; omega)]

/-! ### Claim theorems -/

/-- C1: for every printable-ASCII string `s`, every key `k`, and every
outcome of the internal random padding draws (the two tokens have length
1–20 and alphanumeric characters), `encrypt(s, {key: k})` returns a
ciphertext and `decrypt` of it with the same key returns `s.trim()`. -/
theorem c1_encrypt_decrypt_round_trip (s k pad0 pad1 : JStr)
    (hs : ∀ c ∈ s, 32 ≤ c ∧ c ≤ 126)
    (hp0l : 1 ≤ pad0.length) (hp0u : pad0.length ≤ 20)
    (hp0 : ∀ c ∈ pad0, 48 ≤ c ∧ c ≤ 122)
    (hp1l : 1 ≤ pad1.length) (hp1u : pad1.length ≤ 20)
    (hp1 : ∀ c ∈ pad1, 48 ≤ c ∧ c ≤ 122) :
    ∃ c, encrypt pad0 pad1 s (some (some k)) = some c ∧
      decrypt c (some ⟨some (some k)⟩) = some (jsTrim s) := by
  have hd := decrypt_candidate pad0 pad1 s k hs hp0u hp0 hp1u hp1
  refine ⟨_, ?_, hd⟩
  simp only [encrypt, effKey]
  rw [if_pos hd]

/-- Witness for C1 at `s = "hi"`, `k = "k"`, paddings `"A"` and `"B"`. -/
theorem c1_encrypt_decrypt_round_trip_witness :
    ∃ c, encrypt [65] [66] [104, 105] (some (some [107])) = some c ∧
      decrypt c (some ⟨some (some [107])⟩) = some (jsTrim [104, 105]) :=
  c1_encrypt_decrypt_round_trip [104, 105] [107] [65] [66] (by decide)
    (by decide) (by decide) (by decide) (by decide) (by decide) (by decide)

/-- C2: whenever `encrypt` returns a ciphertext string, decrypting it with
the same key yields the trimmed plaintext — the self-verification guard
compares `decrypt` of the candidate against the trimmed input and refuses
to return an unverified candidate (on mismatch the function re-enters
itself but discards that value and returns `undefined`). -/
theorem c2_encrypt_self_verified (pad0 pad1 data : JStr)
    (okey : Option (Option JStr)) (c : JStr)
    (h : encrypt pad0 pad1 data okey = some c) :
    decrypt c (some ⟨some (some (effKey okey))⟩) = some (jsTrim data) := by
  simp only [encrypt] at h
  split at h
  case isTrue hv =>
      rw [Option.some.injEq] at h
      subst h
      exact hv
  case isFalse hv => exact absurd h (by simp)

/-- The ciphertext produced in the concrete C2 witness run. -/
def c2cipher : JStr := (encrypt [67] [68] [104, 105] (some (some [107]))).getD []

/-- Witness for C2 at `data = "hi"`, `key = "k"`, paddings `"C"`, `"D"`. -/
theorem c2_encrypt_self_verified_witness :
    decrypt c2cipher (some ⟨some (some (effKey (some (some [107]))))⟩)
      = some (jsTrim [104, 105]) :=
  c2_encrypt_self_verified [67] [68] [104, 105] (some (some [107])) c2cipher (by rfl)

/-- C3 (counterexample): the codec pair is not inverse on *every* string —
a lone high surrogate (here `"\uD800"` with the empty key) is turned into
U+FFFD by the UTF-8 step and does not come back. -/
theorem c3_codec_inverse_counterexample :
    base64Decode (base64Encode [55296] []) [] ≠ [55296] := by decide

/-- C3 (amended): `base64Decode (base64Encode s k) k = s` for every key
`k` and every string `s` such that no key-shifted code unit lands in the
surrogate range `0xD800–0xDFFF` (in particular for all ASCII data). -/
theorem c3_codec_inverse_amended (s k : JStr)
    (hs : ∀ c ∈ s, c < 65536)
    (hsh : ∀ y ∈ mapIdx (fun i c => u16 (c + (keySum k + i) % 20)) 0 s,
      y < 55296 ∨ 57344 ≤ y) :
    base64Decode (base64Encode s k) k = s := by
  refine codec_roundtrip s k hs (fun y hy => ?_)
  have h16 : y < 65536 :=
    mapIdx_mem (fun z => z < 65536) _ s 0 (fun i c _ => by unfold u16; omega) y hy
  rcases hsh y hy with h | h
  · exact Or.inl h
  · exact Or.inr ⟨h, h16⟩

/-- Witness for the amended C3 at `s = "A"`, `k = ""`. -/
theorem c3_codec_inverse_amended_witness :
    base64Decode (base64Encode [65] []) [] = [65] :=
  c3_codec_inverse_amended [65] [] (by decide) (by decide)

/-- C7 (amended): `decrypt(c)` with the options object omitted resolves
the key to the same fixed default key string as `encrypt`; but
`decrypt(c, {})` — options present without a `key` property — resolves
the key to the unrelated fallback string `'secretKey'` instead. -/
theorem c7_decrypt_key_default_amended (c : JStr) :
    decrypt c none = decrypt c (some ⟨some (some defaultKey)⟩) ∧
    decrypt c (some ⟨none⟩) = decrypt c (some ⟨some (some secretKeyStr)⟩) :=
  ⟨rfl, rfl⟩

/-- A concrete default-key ciphertext of `"hi"` used to separate the two
key resolutions of `decrypt`. -/
def c7cipher : JStr := (encrypt [65] [66] [104, 105] none).getD []

/-- C7 (counterexample): on a ciphertext produced with the default key,
`decrypt(c, {})` does not behave like `decrypt(c, {key: defaultKey})`:
the former uses the `'secretKey'` fallback and returns a different
string. -/
theorem c7_decrypt_key_default_counterexample :
    decrypt c7cipher (some ⟨none⟩) ≠ decrypt c7cipher (some ⟨some (some defaultKey)⟩) := by
  decide

/-- C8 (amended): `caseSensitive` effectively defaults to `true` only
when the options argument is omitted entirely; an options object passed
without the field behaves exactly like `caseSensitive: false` (the
comparison is case-insensitive), and with wholly omitted options two
distinct strings never match by direct comparison. -/
theorem c8_case_sensitive_default_amended (a b : JStr) :
    isEqual a b none = isEqual a b (some ⟨some true, none, none⟩) ∧
    (∀ (k : Option JStr) (l : Option Bool),
      isEqual a b (some ⟨none, k, l⟩) = isEqual a b (some ⟨some false, k, l⟩)) ∧
    (a ≠ b → (isEqual a b none).method ≠ some "Direct comparison") := by
  refine ⟨rfl, fun k l => rfl, fun hne => ?_⟩
  simp only [isEqual, Option.getD_none]
  rw [if_neg (by simpa using hne)]
  split_ifs <;> decide

/-- Witness for the amended C8 at `a = "A"`, `b = "B"`. -/
theorem c8_case_sensitive_default_amended_witness :
    isEqual [65] [66] none = isEqual [65] [66] (some ⟨some true, none, none⟩) ∧
    isEqual [65] [66] (some ⟨none, none, none⟩)
      = isEqual [65] [66] (some ⟨some false, none, none⟩) ∧
    (isEqual [65] [66] none).method ≠ some "Direct comparison" :=
  ⟨(c8_case_sensitive_default_amended [65] [66]).1,
    (c8_case_sensitive_default_amended [65] [66]).2.1 none none,
    (c8_case_sensitive_default_amended [65] [66]).2.2 (by decide)⟩

/-- C8 (counterexample): with an options object that has a `key` but no
`caseSensitive` field, `"ABC"` and `"abc"` *do* match by direct
comparison — the omitted field selects `toLowerCase`, not the documented
`true` default. -/
theorem c8_case_sensitive_default_counterexample :
    isEqual [65, 66, 67] [97, 98, 99] (some ⟨none, some [107], none⟩)
      = ⟨true, some "Direct comparison"⟩ := by decide

/-- C9: the codec sees the key only through its character-code sum — two
keys with equal key sums encode and decode identically on every input. -/
theorem c9_codec_key_sum_only (d k1 k2 : JStr) (h : keySum k1 = keySum k2) :
    base64Encode d k1 = base64Encode d k2 ∧ base64Decode d k1 = base64Decode d k2 := by
  constructor <;> simp only [base64Encode, base64Decode, h]

/-- Witness for C9 with the distinct keys `"ab"` and `"ba"` on data `"H"`. -/
theorem c9_codec_key_sum_only_witness :
    base64Encode [72] [97, 98] = base64Encode [72] [98, 97] ∧
    base64Decode [72] [97, 98] = base64Decode [72] [98, 97] :=
  c9_codec_key_sum_only [72] [97, 98] [98, 97] (by decide)

/-! ### Token generator lemmas -/

theorem tgInit_length (rand : Nat → Nat) (cs : JStr) :
    ∀ (n : Nat) (j : Nat), (tgInit rand cs j n).length = n
  | 0, _ => rfl
  | n + 1, j => by
      simp only [tgInit, List.length_cons]
      rw [tgInit_length rand cs n (j + 1)]

theorem tgLoop_spec (rand : Nat → Nat) (cs : JStr) (len : Int) :
    ∀ (fuel : Nat) (token : JStr) (j : Nat) (t : JStr),
      (token.length : Int) = len →
      tgLoop rand cs len fuel token j = some t →
      (t.length : Int) = len ∧ t.head? ≠ some 48
  | 0, token, j, t, hlen, h => by simp [tgLoop] at h
  | fuel + 1, token, j, t, hlen, h => by
      have hg : ¬ ((token.length : Int) < len) := by omega
      simp only [tgLoop, hg, if_false, if_neg hg] at h
      by_cases hf : token.head? = some 48
      · rw [if_pos hf, if_pos hf] at h
        have hne : token ≠ [] := by
          intro he
          rw [he] at hf
          simp at hf
        by_cases hd : drawChar rand cs j = 48
        · rw [if_pos (by simp [hd])] at h
          exact tgLoop_spec rand cs len fuel token (j + 1) t hlen h
        · rw [if_neg (by
            simp only [List.head?_cons, Option.some.injEq, not_or]
            exact ⟨hd, by omega⟩)] at h
          rw [Option.some.injEq] at h
          subst h
          constructor
          · simp only [List.length_cons, List.length_tail]
            have : 0 < token.length := List.length_pos.2 hne
            omega
          · simp [hd]
      · rw [if_neg hf, if_neg hf, if_neg (by simp [hf]; omega)] at h
        rw [Option.some.injEq] at h
        subst h
        exact ⟨hlen, hf⟩

theorem tgLoop_neg (rand : Nat → Nat) (cs : JStr) (n : Int) (hn : n < 0) :
    ∀ (fuel : Nat) (j : Nat), tgLoop rand cs n fuel [] j = none
  | 0, _ => rfl
  | fuel + 1, j => by
      have hf : ¬ (([] : JStr).head? = some 48) := by simp
      have hg : ¬ ((([] : JStr).length : Int) < n) := by simp; omega
      simp only [tgLoop, if_neg hf, if_neg hg]
      rw [if_pos (by simp; omega)]
      exact tgLoop_neg rand cs n hn fuel j

/-- C6 (amended): `tokenGenerator` performs no argument validation and
raises no `InvalidArgument` error; for every requested length `n ≥ 1` and
any character-set name, whenever the call returns it returns a token of
length exactly `n` whose first character is never `'0'`. -/
theorem c6_token_generator_shape_amended (rand : Nat → Nat)
    (set? : Option CharacterSetType) :
    tokenGenerator rand 1 0 set? = some [] ∧
    ∀ (fuel : Nat) (n : Int) (t : JStr), 1 ≤ n →
      tokenGenerator rand fuel n set? = some t →
      (t.length : Int) = n ∧ t.head? ≠ some 48 := by
  constructor
  · simp [tokenGenerator, tgLoop, tgInit]
  · intro fuel n t hn h
    refine tgLoop_spec rand (resolveSet set?) n fuel _ _ t ?_ h
    rw [tgInit_length]
    omega

/-- Witness for the amended C6: with the constant draw stream `0`,
`tokenGenerator(3, defaultSet)` returns `"AAA"`, which has length 3 and
does not start with `'0'`. -/
theorem c6_token_generator_shape_amended_witness :
    ((([65, 65, 65] : JStr).length : Int) = 3 ∧
      ([65, 65, 65] : JStr).head? ≠ some 48) :=
  (c6_token_generator_shape_amended (fun _ => 0) none).2 1 3 [65, 65, 65]
    (by decide) (by decide)

/-- C6 (counterexample): a non-positive length does not fail with an
`InvalidArgument` error — `tokenGenerator(0, set1)` terminates normally
and returns the empty string. -/
theorem c6_token_generator_error_counterexample :
    tokenGenerator (fun _ => 0) 1 0 (some .set1) = some [] := by decide

/-- C10: `tokenGenerator(0, set)` terminates and returns the empty string
without raising, while for every strictly negative length the
re-validation loop never terminates (`none` for every fuel): its
condition compares the token length with the requested length, which a
negative request can never satisfy. -/
theorem c10_token_generator_zero_and_negative (rand : Nat → Nat)
    (set? : Option CharacterSetType) :
    (∀ fuel : Nat, 1 ≤ fuel → tokenGenerator rand fuel 0 set? = some []) ∧
    (∀ n : Int, n < 0 → ∀ fuel : Nat, tokenGenerator rand fuel n set? = none) := by
  constructor
  · intro fuel hfuel
    match fuel, hfuel with
    | fuel + 1, _ => simp [tokenGenerator, tgLoop, tgInit]
  · intro n hn fuel
    have hinit : tgInit rand (resolveSet set?) 0 n.toNat = [] := by
      rw [show n.toNat = 0 from by omega]
      rfl
    simp only [tokenGenerator, hinit]
    exact tgLoop_neg rand (resolveSet set?) n hn fuel n.toNat

/-- Witness for C10 at length `0` and `-1` with the constant draw
stream. -/
theorem c10_token_generator_zero_and_negative_witness :
    tokenGenerator (fun _ => 0) 1 0 none = some [] ∧
    tokenGenerator (fun _ => 0) 7 (-1) none = none :=
  ⟨(c10_token_generator_zero_and_negative (fun _ => 0) none).1 1 (by decide),
    (c10_token_generator_zero_and_negative (fun _ => 0) none).2 (-1) (by decide) 7⟩

/-! ### Walker shape preservation -/

theorem shapeV_liftEnc (x : Option JStr) : shapeV (liftEnc x) = Shape.leaf := by
  cases x <;> rfl

mutual
theorem encTopVal_shape (enc : JStr → Option JStr) :
    ∀ (v r : JSValue), encTopVal enc v = some r → shapeV r = shapeV v
  | .str s, r, h => by
      simp only [encTopVal, Option.some.injEq] at h
      subst h
      rw [shapeV_liftEnc]
      simp [shapeV]
  | .num n, r, h => by
      simp only [encTopVal, Option.some.injEq] at h
      subst h
      rw [shapeV_liftEnc]
      simp [shapeV]
  | .bool b, r, h => by
      simp only [encTopVal, Option.some.injEq] at h
      subst h
      rw [shapeV_liftEnc]
      simp [shapeV]
  | .null, r, h => by simp [encTopVal] at h
  | .other, r, h => by
      simp only [encTopVal, Option.some.injEq] at h
      subst h
      rfl
  | .arr xs, r, h => by
      simp only [encTopVal, Option.map_eq_some'] at h
      obtain ⟨xs', hxs, rfl⟩ := h
      simp only [shapeV]
      rw [encItems_shape enc xs xs' hxs]
  | .obj fs, r, h => by
      simp only [encTopVal, Option.map_eq_some'] at h
      obtain ⟨fs', hfs, rfl⟩ := h
      simp only [shapeV]
      rw [encFields_shape enc fs fs' hfs]

theorem encFields_shape (enc : JStr → Option JStr) :
    ∀ (fs fs' : List (JStr × JSValue)), encFields enc fs = some fs' → shapeF fs' = shapeF fs
  | [], fs', h => by
      simp only [encFields, Option.some.injEq] at h
      subst h
      rfl
  | (k, v) :: rest, fs', h => by
      simp only [encFields] at h
      cases hv : encTopVal enc v with
      | none => rw [hv] at h; simp at h
      | some v' =>
          cases hrest : encFields enc rest with
          | none => rw [hv, hrest] at h; simp at h
          | some rest' =>
              rw [hv, hrest] at h
              simp only [Option.some.injEq] at h
              subst h
              simp only [shapeF]
              rw [encTopVal_shape enc v v' hv, encFields_shape enc rest rest' hrest]

theorem encItems_shape (enc : JStr → Option JStr) :
    ∀ (xs xs' : List JSValue), encItems enc xs = some xs' → shapeL xs' = shapeL xs
  | [], xs', h => by
      simp only [encItems, Option.some.injEq] at h
      subst h
      rfl
  | x :: xs, r, h => by
      simp only [encItems] at h
      cases hx : encItem enc x with
      | none => rw [hx] at h; simp at h
      | some x' =>
          cases hxs : encItems enc xs with
          | none => rw [hx, hxs] at h; simp at h
          | some xs' =>
              rw [hx, hxs] at h
              simp only [Option.some.injEq] at h
              subst h
              simp only [shapeL]
              rw [encItem_shape enc x x' hx, encItems_shape enc xs xs' hxs]

theorem encItem_shape (enc : JStr → Option JStr) :
    ∀ (x x' : JSValue), encItem enc x = some x' → shapeV x' = shapeV x
  | .str s, r, h => by
      simp only [encItem, Option.some.injEq] at h
      subst h
      rw [shapeV_liftEnc]
      simp [shapeV]
  | .num n, r, h => by
      simp only [encItem, Option.some.injEq] at h
      subst h
      rw [shapeV_liftEnc]
      simp [shapeV]
  | .bool b, r, h => by
      simp only [encItem, Option.some.injEq] at h
      subst h
      rfl
  | .null, r, h => by simp [encItem] at h
  | .other, r, h => by
      simp only [encItem, Option.some.injEq] at h
      subst h
      rfl
  | .arr ys, r, h => by
      simp only [encItem, Option.map_eq_some'] at h
      obtain ⟨ys', hys, rfl⟩ := h
      simp only [shapeV]
      rw [encSubItems_shape enc ys ys' hys]
  | .obj fs, r, h => by
      simp only [encItem, Option.map_eq_some'] at h
      obtain ⟨fs', hfs, rfl⟩ := h
      simp only [shapeV]
      rw [encFields_shape enc fs fs' hfs]

theorem encSubItems_shape (enc : JStr → Option JStr) :
    ∀ (xs xs' : List JSValue), encSubItems enc xs = some xs' → shapeL xs' = shapeL xs
  | [], xs', h => by
      simp only [encSubItems, Option.some.injEq] at h
      subst h
      rfl
  | x :: xs, r, h => by
      simp only [encSubItems] at h
      cases hx : encSubItem enc x with
      | none => rw [hx] at h; simp at h
      | some x' =>
          cases hxs : encSubItems enc xs with
          | none => rw [hx, hxs] at h; simp at h
          | some xs' =>
              rw [hx, hxs] at h
              simp only [Option.some.injEq] at h
              subst h
              simp only [shapeL]
              rw [encSubItem_shape enc x x' hx, encSubItems_shape enc xs xs' hxs]

theorem encSubItem_shape (enc : JStr → Option JStr) :
    ∀ (x x' : JSValue), encSubItem enc x = some x' → shapeV x' = shapeV x
  | .str s, r, h => by
      simp only [encSubItem, Option.some.injEq] at h
      subst h
      rw [shapeV_liftEnc]
      simp [shapeV]
  | .num n, r, h => by
      simp only [encSubItem, Option.some.injEq] at h
      subst h
      rw [shapeV_liftEnc]
      simp [shapeV]
  | .bool b, r, h => by
      simp only [encSubItem, Option.some.injEq] at h
      subst h
      rfl
  | .null, r, h => by simp [encSubItem] at h
  | .other, r, h => by
      simp only [encSubItem, Option.some.injEq] at h
      subst h
      rfl
  | .arr zs, r, h => by
      simp only [encSubItem, Option.map_eq_some'] at h
      obtain ⟨zs', hzs, rfl⟩ := h
      simp only [shapeV]
      rw [encItems_shape enc zs zs' hzs]
  | .obj fs, r, h => by
      simp only [encSubItem, Option.map_eq_some'] at h
      obtain ⟨fs', hfs, rfl⟩ := h
      simp only [shapeV]
      rw [encFields_shape enc fs fs' hfs]
end

mutual
theorem decTopVal_shape (key : JStr) :
    ∀ (v r : JSValue), decTopVal key v = some r → shapeV r = shapeV v
  | .str s, r, h => by
      simp only [decTopVal, Option.map_eq_some'] at h
      obtain ⟨d, _, rfl⟩ := h
      simp [shapeV]
  | .num n, r, h => by
      simp only [decTopVal, Option.some.injEq] at h
      subst h
      rfl
  | .bool b, r, h => by
      simp only [decTopVal, Option.some.injEq] at h
      subst h
      rfl
  | .null, r, h => by simp [decTopVal] at h
  | .other, r, h => by
      simp only [decTopVal, Option.some.injEq] at h
      subst h
      rfl
  | .arr xs, r, h => by
      simp only [decTopVal, Option.map_eq_some'] at h
      obtain ⟨xs', hxs, rfl⟩ := h
      simp only [shapeV]
      rw [decItems_shape key xs xs' hxs]
  | .obj fs, r, h => by
      simp only [decTopVal, Option.map_eq_some'] at h
      obtain ⟨fs', hfs, rfl⟩ := h
      simp only [shapeV]
      rw [decFields_shape key fs fs' hfs]

theorem decFields_shape (key : JStr) :
    ∀ (fs fs' : List (JStr × JSValue)), decFields key fs = some fs' → shapeF fs' = shapeF fs
  | [], fs', h => by
      simp only [decFields, Option.some.injEq] at h
      subst h
      rfl
  | (k, v) :: rest, fs', h => by
      simp only [decFields] at h
      cases hv : decTopVal key v with
      | none => rw [hv] at h; simp at h
      | some v' =>
          cases hrest : decFields key rest with
          | none => rw [hv, hrest] at h; simp at h
          | some rest' =>
              rw [hv, hrest] at h
              simp only [Option.some.injEq] at h
              subst h
              simp only [shapeF]
              rw [decTopVal_shape key v v' hv, decFields_shape key rest rest' hrest]

theorem decItems_shape (key : JStr) :
    ∀ (xs xs' : List JSValue), decItems key xs = some xs' → shapeL xs' = shapeL xs
  | [], xs', h => by
      simp only [decItems, Option.some.injEq] at h
      subst h
      rfl
  | x :: xs, r, h => by
      simp only [decItems] at h
      cases hx : decItem key x with
      | none => rw [hx] at h; simp at h
      | some x' =>
          cases hxs : decItems key xs with
          | none => rw [hx, hxs] at h; simp at h
          | some xs' =>
              rw [hx, hxs] at h
              simp only [Option.some.injEq] at h
              subst h
              simp only [shapeL]
              rw [decItem_shape key x x' hx, decItems_shape key xs xs' hxs]

theorem decItem_shape (key : JStr) :
    ∀ (x x' : JSValue), decItem key x = some x' → shapeV x' = shapeV x
  | .str s, r, h => by
      simp only [decItem, Option.map_eq_some'] at h
      obtain ⟨d, _, rfl⟩ := h
      simp [shapeV]
  | .num n, r, h => by
      simp only [decItem, Option.some.injEq] at h
      subst h
      rfl
  | .bool b, r, h => by
      simp only [decItem, Option.some.injEq] at h
      subst h
      rfl
  | .null, r, h => by simp [decItem] at h
  | .other, r, h => by
      simp only [decItem, Option.some.injEq] at h
      subst h
      rfl
  | .arr ys, r, h => by
      simp only [decItem, Option.map_eq_some'] at h
      obtain ⟨ys', hys, rfl⟩ := h
      simp only [shapeV]
      rw [decSubItems_shape key ys ys' hys]
  | .obj fs, r, h => by
      simp only [decItem, Option.map_eq_some'] at h
      obtain ⟨fs', hfs, rfl⟩ := h
      simp only [shapeV]
      rw [decFields_shape key fs fs' hfs]

theorem decSubItems_shape (key : JStr) :
    ∀ (xs xs' : List JSValue), decSubItems key xs = some xs' → shapeL xs' = shapeL xs
  | [], xs', h => by
      simp only [decSubItems, Option.some.injEq] at h
      subst h
      rfl
  | x :: xs, r, h => by
      simp only [decSubItems] at h
      cases hx : decSubItem key x with
      | none => rw [hx] at h; simp at h
      | some x' =>
          cases hxs : decSubItems key xs with
          | none => rw [hx, hxs] at h; simp at h
          | some xs' =>
              rw [hx, hxs] at h
              simp only [Option.some.injEq] at h
              subst h
              simp only [shapeL]
              rw [decSubItem_shape key x x' hx, decSubItems_shape key xs xs' hxs]

theorem decSubItem_shape (key : JStr) :
    ∀ (x x' : JSValue), decSubItem key x = some x' → shapeV x' = shapeV x
  | .str s, r, h => by
      simp only [decSubItem, Option.map_eq_some'] at h
      obtain ⟨d, _, rfl⟩ := h
      simp [shapeV]
  | .num n, r, h => by
      simp only [decSubItem, Option.some.injEq] at h
      subst h
      rfl
  | .bool b, r, h => by
      simp only [decSubItem, Option.some.injEq] at h
      subst h
      rfl
  | .null, r, h => by simp [decSubItem] at h
  | .other, r, h => by
      simp only [decSubItem, Option.some.injEq] at h
      subst h
      rfl
  | .arr zs, r, h => by
      simp only [decSubItem, Option.map_eq_some'] at h
      obtain ⟨zs', hzs, rfl⟩ := h
      simp only [shapeV]
      rw [decItems_shape key zs zs' hzs]
  | .obj fs, r, h => by
      simp only [decSubItem, Option.map_eq_some'] at h
      obtain ⟨fs', hfs, rfl⟩ := h
      simp only [shapeV]
      rw [decFields_shape key fs fs' hfs]
end

/-- C4 (amended): whenever `encryptObject` or `decryptObject` returns a
result, that result has exactly the same shape as the input (same
container kind at every node, same keys in the same insertion order, same
sequence lengths; only leaves change).  Neither direction returns a
result on every container: `encryptObject` throws on a `null` member and
`decryptObject` throws whenever `decrypt` of a string leaf throws. -/
theorem c4_walker_shape_amended (enc : JStr → Option JStr) (key : JStr)
    (fs : List (JStr × JSValue)) :
    (∀ r, encFields enc fs = some r → shapeF r = shapeF fs) ∧
    (∀ r, decFields key fs = some r → shapeF r = shapeF fs) :=
  ⟨fun r h => encFields_shape enc fs r h, fun r h => decFields_shape key fs r h⟩

/-- A concrete ciphertext of `"hi"` under the default key, used as a
string leaf in the C4 witness. -/
def c4cipher : JStr := (encrypt [65] [66] [104, 105] (some (some defaultKey))).getD []

/-- Witness for the amended C4: a one-field object through each
direction. -/
theorem c4_walker_shape_amended_witness :
    shapeF [([97], JSValue.str [107])] = shapeF [([97], JSValue.str [104])] ∧
    shapeF [([97], JSValue.str [104, 105])] = shapeF [([97], JSValue.str c4cipher)] :=
  ⟨(c4_walker_shape_amended (fun _ => some [107]) defaultKey [([97], .str [104])]).1
      [([97], JSValue.str [107])] (by rfl),
    (c4_walker_shape_amended (fun _ => some [107]) defaultKey [([97], .str c4cipher)]).2
      [([97], JSValue.str [104, 105])] (by rfl)⟩

/-- C4 (counterexample): `decryptObject({a: ""}, defaultKey)` returns no
result at all — the leaf `decrypt("")` throws (the decoded payload is
empty) and the walker propagates the error — so it does not return a
same-shaped result for every nested container. -/
theorem c4_walker_shape_counterexample :
    decFields defaultKey [([97], JSValue.str [])] = none := by rfl

/-- C5 (amended): on the encrypt path the walker stringifies and encrypts
string, number and boolean *mapping values*, but inside sequences (at any
depth) only string and number elements are encrypted — boolean elements
pass through unchanged; on the decrypt path only string leaves are
transformed and every non-string scalar passes through unchanged. -/
theorem c5_walker_leaf_dispatch_amended (enc : JStr → Option JStr) (key : JStr) :
    (∀ (k s : JStr),
      encFields enc [(k, .str s)] = some [(k, liftEnc (enc (jsTrim s)))]) ∧
    (∀ (k : JStr) (n : Int),
      encFields enc [(k, .num n)] = some [(k, liftEnc (enc (jsTrim (numToStr n))))]) ∧
    (∀ (k : JStr) (b : Bool),
      encFields enc [(k, .bool b)] = some [(k, liftEnc (enc (jsTrim (boolToStr b))))]) ∧
    (∀ s : JStr, encItems enc [.str s] = some [liftEnc (enc s)]) ∧
    (∀ n : Int, encItems enc [.num n] = some [liftEnc (enc (numToStr n))]) ∧
    (∀ b : Bool, encItems enc [.bool b] = some [.bool b]) ∧
    (∀ s : JStr, encSubItems enc [.str s] = some [liftEnc (enc s)]) ∧
    (∀ b : Bool, encSubItems enc [.bool b] = some [.bool b]) ∧
    (∀ (k s : JStr),
      decFields key [(k, .str s)]
        = (decrypt (jsTrim s) (some ⟨some (some key)⟩)).map (fun r => [(k, .str r)])) ∧
    (∀ (k : JStr) (n : Int), decFields key [(k, .num n)] = some [(k, .num n)]) ∧
    (∀ (k : JStr) (b : Bool), decFields key [(k, .bool b)] = some [(k, .bool b)]) ∧
    (∀ s : JStr,
      decItems key [.str s]
        = (decrypt s (some ⟨some (some key)⟩)).map (fun r => [.str r])) ∧
    (∀ n : Int, decItems key [.num n] = some [.num n]) ∧
    (∀ b : Bool, decItems key [.bool b] = some [.bool b]) ∧
    (∀ n : Int, decSubItems key [.num n] = some [.num n]) ∧
    (∀ b : Bool, decSubItems key [.bool b] = some [.bool b]) := by
  refine ⟨fun k s => rfl, fun k n => rfl, fun k b => rfl, fun s => rfl, fun n => rfl,
    fun b => rfl, fun s => rfl, fun b => rfl, fun k s => ?_, fun k n => rfl, fun k b => rfl,
    fun s => ?_, fun n => rfl, fun b => rfl, fun n => rfl, fun b => rfl⟩
  · cases h : decrypt (jsTrim s) (some ⟨some (some key)⟩) <;>
      simp [decFields, decTopVal, h]
  · cases h : decrypt s (some ⟨some (some key)⟩) <;>
      simp [decItems, decItem, h]

/-- C5 (counterexample): a boolean element of a sequence is *not*
replaced by `encrypt(String(leaf))` on the encrypt path —
`encryptObject({a: [true]})` leaves the boolean untouched even though the
supplied `encrypt` oracle would return the string `"x"`. -/
theorem c5_walker_leaf_dispatch_counterexample :
    encFields (fun _ => some [120]) [([97], JSValue.arr [JSValue.bool true])]
      = some [([97], JSValue.arr [JSValue.bool true])] := by rfl

/-! ### The paddings assumed in the round-trip theorems are exactly what
`tokenGenerator` can produce: alphanumeric character codes. -/

theorem resolveSet_bounds (o : Option CharacterSetType) :
    ∀ c ∈ resolveSet o, 48 ≤ c ∧ c ≤ 122 := by
  cases o with
  | none => decide
  | some t => cases t <;> decide

theorem resolveSet_ne_nil (o : Option CharacterSetType) : resolveSet o ≠ [] := by
  cases o with
  | none => decide
  | some t => cases t <;> decide

theorem drawChar_mem (rand : Nat → Nat) (cs : JStr) (j : Nat) (h : cs ≠ []) :
    drawChar rand cs j ∈ cs := by
  unfold drawChar
  have hlen : 0 < cs.length := List.length_pos.2 h
  rw [List.getD_eq_getElem cs 0 (Nat.mod_lt _ hlen)]
  exact List.getElem_mem _

theorem tgInit_mem (rand : Nat → Nat) (cs : JStr) (h : cs ≠ []) :
    ∀ (n j : Nat), ∀ c ∈ tgInit rand cs j n, c ∈ cs
  | 0, _, c, hc => by simp [tgInit] at hc
  | n + 1, j, c, hc => by
      simp only [tgInit, List.mem_cons] at hc
      rcases hc with rfl | hc
      · exact drawChar_mem rand cs j h
      · exact tgInit_mem rand cs h n (j + 1) c hc

theorem tgLoop_mem (rand : Nat → Nat) (cs : JStr) (len : Int) (hcs : cs ≠ []) :
    ∀ (fuel : Nat) (token : JStr) (j : Nat) (t : JStr),
      (∀ c ∈ token, c ∈ cs) →
      tgLoop rand cs len fuel token j = some t →
      ∀ c ∈ t, c ∈ cs
  | 0, token, j, t, htok, h => by simp [tgLoop] at h
  | fuel + 1, token, j, t, htok, h => by
      by_cases hg : (token.length : Int) < len
      · by_cases hf : token.head? = some 48
        · rw [tgLoop, if_pos hf, if_pos hf, if_pos hg, if_pos hg] at h
          have htok1 : ∀ c ∈ token ++ [drawChar rand cs (j + 1)], c ∈ cs := by
            intro c hc
            rcases List.mem_append.1 hc with hc | hc
            · exact htok c hc
            · rw [List.mem_singleton] at hc
              subst hc
              exact drawChar_mem rand cs _ hcs
          split at h
          · exact tgLoop_mem rand cs len hcs fuel _ _ t htok1 h
          · rw [Option.some.injEq] at h
            subst h
            intro c hc
            rcases List.mem_cons.1 hc with rfl | hc
            · exact drawChar_mem rand cs _ hcs
            · exact htok c ((List.tail_sublist token).mem hc)
        · rw [tgLoop, if_neg hf, if_neg hf, if_pos hg, if_pos hg] at h
          have htok1 : ∀ c ∈ token ++ [drawChar rand cs j], c ∈ cs := by
            intro c hc
            rcases List.mem_append.1 hc with hc | hc
            · exact htok c hc
            · rw [List.mem_singleton] at hc
              subst hc
              exact drawChar_mem rand cs _ hcs
          split at h
          · exact tgLoop_mem rand cs len hcs fuel _ _ t htok1 h
          · rw [Option.some.injEq] at h
            subst h
            exact htok
      · by_cases hf : token.head? = some 48
        · rw [tgLoop, if_pos hf, if_pos hf, if_neg hg, if_neg hg] at h
          split at h
          · exact tgLoop_mem rand cs len hcs fuel _ _ t htok h
          · rw [Option.some.injEq] at h
            subst h
            intro c hc
            rcases List.mem_cons.1 hc with rfl | hc
            · exact drawChar_mem rand cs _ hcs
            · exact htok c ((List.tail_sublist token).mem hc)
        · rw [tgLoop, if_neg hf, if_neg hf, if_neg hg, if_neg hg] at h
          split at h
          · exact tgLoop_mem rand cs len hcs fuel _ _ t htok h
          · rw [Option.some.injEq] at h
            subst h
            exact htok

/-- Any token `tokenGenerator` returns consists of alphanumeric
character codes — exactly the padding hypothesis of the round-trip
theorems. -/
theorem tokenGenerator_pad_chars (rand : Nat → Nat) (fuel : Nat) (n : Int)
    (set? : Option CharacterSetType) (t : JStr)
    (h : tokenGenerator rand fuel n set? = some t) :
    ∀ c ∈ t, 48 ≤ c ∧ c ≤ 122 := by
  intro c hc
  refine resolveSet_bounds set? c ?_
  refine tgLoop_mem rand (resolveSet set?) n (resolveSet_ne_nil set?) fuel _ _ t
    (tgInit_mem rand (resolveSet set?) (resolveSet_ne_nil set?) n.toNat 0) h c hc
